import Mathlib

/-!
Verification development for the `extract-manylinux` repository.

The Python sources (`extract_manylinux/extract.py`, `extractor_cli.py`) are
shallowly embedded below.  External capabilities (the filesystem, `readelf`,
`patchelf`, `glob`, `os.readlink`) are modelled as a record of oracle
functions (`Sys`), and the side effects of an extraction are modelled as an
explicit trace of operations (`Op`).  Machine-level details (ELF bytes,
process plumbing) are abstracted exactly at the boundary where the source
delegates to external tools.
-/

/-! ## Character-list helpers (Python string primitives) -/

/-- ASCII whitespace, as recognised by Python `str.strip` (restricted to the
ASCII range; the sources only ever strip ASCII output of external tools). -/
def isSpaceB (c : Char) : Bool :=
  c == ' ' || c == '\t' || c == '\n' || c == '\r' || c == '\x0b' || c == '\x0c'

/-- Python `str.strip()` on a list of characters. -/
def trimCh (cs : List Char) : List Char :=
  ((cs.dropWhile isSpaceB).reverse.dropWhile isSpaceB).reverse

/-- Python `str.strip()`. -/
def trimS (s : String) : String :=
  String.mk (trimCh s.data)

/-- Split at the first occurrence of `sep`, returning the two sides,
or `none` when `sep` does not occur (one step of Python `str.split(sep, n)`). -/
def splitFirstCh (sep : Char) : List Char → Option (List Char × List Char)
  | [] => none
  | c :: cs =>
    if c = sep then some ([], cs)
    else
      match splitFirstCh sep cs with
      | none => none
      | some pq => some (c :: pq.1, pq.2)

/-- Python `str.split(sep, maxsplit)` on character lists. -/
def splitMaxCh (sep : Char) : Nat → List Char → List (List Char)
  | 0, cs => [cs]
  | n + 1, cs =>
    match splitFirstCh sep cs with
    | none => [cs]
    | some pq => pq.1 :: splitMaxCh sep n pq.2

/-- Python `str.split(sep)` (unbounded) on character lists. -/
def splitAllCh (sep : Char) : List Char → List (List Char)
  | [] => [[]]
  | c :: cs =>
    if c = sep then [] :: splitAllCh sep cs
    else
      match splitAllCh sep cs with
      | [] => [[c]]
      | p :: ps => (c :: p) :: ps

/-- Value of a decimal digit. -/
def digitVal (c : Char) : Option Nat :=
  if '0' ≤ c ∧ c ≤ '9' then some (c.toNat - '0'.toNat) else none

/-- Value of a nonempty all-digit character list, `none` otherwise. -/
def digitsVal (cs : List Char) : Option Nat :=
  cs.foldl
    (fun acc c =>
      match acc, digitVal c with
      | some n, some d => some (n * 10 + d)
      | _, _ => none)
    (if cs.isEmpty then none else some 0)

/-- Python `int(str)` on character lists: surrounding whitespace is stripped,
an optional sign is allowed, then a nonempty run of decimal digits (digit
group separators are not modelled; none occur in the repository's inputs). -/
def pyIntCh (cs : List Char) : Option Int :=
  match trimCh cs with
  | '+' :: ds => (digitsVal ds).map (fun n => (n : Int))
  | '-' :: ds => (digitsVal ds).map (fun n => -(n : Int))
  | ds => (digitsVal ds).map (fun n => (n : Int))

/-- Python `int(str)`, `none` for `ValueError`. -/
def pyInt? (s : String) : Option Int :=
  pyIntCh s.data

/-! ## Path helpers (pathlib) -/

/-- `pathlib` path joining `a / b`: an absolute right operand wins. -/
def joinPath (a b : String) : String :=
  match b.data with
  | '/' :: _ => b
  | _ => a ++ "/" ++ b

/-- `pathlib.Path(s).name`: the last nonempty `/`-separated component. -/
def pathName (s : String) : String :=
  String.mk (((splitAllCh '/' s.data).filter (fun c => !c.isEmpty)).getLastD [])

/-- `pathlib.Path(s).parent`, up to trailing-slash normalisation: drop the
last path component.  Only ever fed to the external `os.path.relpath`. -/
def parentDir (s : String) : String :=
  match s.data.reverse.dropWhile (fun c => !(c == '/')) with
  | [] => "."
  | ['/'] => "/"
  | _ :: rest => String.mk rest.reverse

/-! ## Data model (`extract.py` lines 13-47) -/

/-- Supported architectures (`Arch`). -/
inductive Arch
  | AARCH64
  | I686
  | X86_64
deriving DecidableEq

/-- Supported Python implementations (`PythonImpl`). -/
inductive PythonImpl
  | CPYTHON
deriving DecidableEq

/-- Errors raised by the embedded code.  `fuelOut` is an artefact of the
embedding: it marks exhaustion of the recursion budget given to the
dependency walk (the Python original recurses without an explicit bound). -/
inductive Err
  | valueError
  | notImplemented
  | osError
  | fileNotFound (name : String)
  | assertionError
  | fileExists
  | fuelOut
deriving DecidableEq

/-- `PythonVersion` named tuple: `major`, `minor`, and a patch component
that is an `int` or a leftover `str` (`Union[int, str]`). -/
structure PythonVersion where
  major : Int
  minor : Int
  patch : Int ⊕ String
deriving DecidableEq

/-- `PythonVersion.from_str` (`extract.py` lines 33-40):
`major, minor, patch = value.split('.', 2)`, then try `int(patch)`,
keeping the string on `ValueError`, then `int(major)`, `int(minor)`. -/
def PythonVersion.from_str (value : String) : Except Err PythonVersion :=
  match splitMaxCh '.' 2 value.data with
  | [ma, mi, pa] =>
    let patch : Int ⊕ String :=
      match pyIntCh pa with
      | some n => Sum.inl n
      | none => Sum.inr (String.mk pa)
    match pyIntCh ma, pyIntCh mi with
    | some major, some minor => Except.ok ⟨major, minor, patch⟩
    | _, _ => Except.error Err.valueError
  | _ => Except.error Err.valueError

/-- Display of the patch component inside an f-string. -/
def PythonVersion.patchStr (v : PythonVersion) : String :=
  match v.patch with
  | Sum.inl n => toString n
  | Sum.inr s => s

/-- `PythonVersion.long` (`extract.py` lines 42-43). -/
def PythonVersion.long (v : PythonVersion) : String :=
  toString v.major ++ "." ++ toString v.minor ++ "." ++ v.patchStr

/-- `PythonVersion.short` (`extract.py` lines 45-46). -/
def PythonVersion.short (v : PythonVersion) : String :=
  toString v.major ++ "." ++ toString v.minor

/-! ## The external system

All interactions of `extract.py` with the outside world, as one record of
oracle functions.  `needed` is the list of `(NEEDED)` entries reported by
`readelf -d`; `relpath` is `os.path.relpath`. -/

structure Sys where
  needed : String → List String
  fileExists : String → Bool
  mode : String → Nat
  readlink : String → Option String
  glob : String → List String
  fileLines : String → Option (List String)
  relpath : String → String → String
  moduleDir : String
  homeDir : String

/-- The `Extractor` dataclass after `__post_init__` has filled the derived
fields (`extract.py` lines 49-146). -/
structure Extractor where
  arch : Arch
  imgPrefix : String
  tag : String
  patchelf : String
  excluded : List String
  impl : PythonImpl
  library_path : List String
  pythonPrefix : String
  version : PythonVersion

/-- Keep a stripped line of the exclude list
(`if line and not line.startswith('#')`). -/
def keepLine (l : String) : Bool :=
  match l.data with
  | [] => false
  | c :: _ => !(c == '#')

/-- `Extractor.__post_init__` (`extract.py` lines 86-146): resolve the
interpreter symlink, parse implementation and version, build the library
search path, load the exclude list, and locate `patchelf`. -/
def postInit (arch : Arch) (imgPrefix : String) (tag : String)
    (excludelistArg : Option String) (patchelfArg : Option String)
    (sys : Sys) : Except Err Extractor := do
  let link ←
    match sys.readlink (joinPath imgPrefix ("opt/python/" ++ tag)) with
    | none => Except.error Err.osError
    | some l => Except.ok l
  match link.data with
  | '/' :: linkTail =>
    let pythonPrefix := joinPath imgPrefix (String.mk linkTail)
    let nm := pathName link
    match splitFirstCh '-' nm.data with
    | none => Except.error Err.valueError
    | some ht =>
      let impl ←
        if String.mk ht.1 = "cpython" then Except.ok PythonImpl.CPYTHON
        else Except.error Err.notImplemented
      let version ← PythonVersion.from_str (String.mk ht.2)
      let paths :=
        match arch with
        | Arch.AARCH64 => [joinPath imgPrefix "lib64"]
        | Arch.X86_64 => [joinPath imgPrefix "lib64"]
        | Arch.I686 => [joinPath imgPrefix "lib"]
      let paths := paths ++ [joinPath imgPrefix "usr/local/lib"]
      let ssl := sys.glob (joinPath imgPrefix "opt/_internal/openssl-*")
      let paths :=
        match ssl with
        | [] => paths
        | s0 :: _ => paths ++ [joinPath s0 "lib"]
      let excludelist :=
        match excludelistArg with
        | some p => p
        | none => joinPath sys.moduleDir "share/excludelist"
      let lines ←
        match sys.fileLines excludelist with
        | none => Except.error Err.osError
        | some ls => Except.ok ls
      let excluded := (lines.map trimS).filter keepLine
      let patchelf ←
        match patchelfArg with
        | some p =>
          if sys.fileExists p then Except.ok p
          else Except.error Err.assertionError
        | none =>
          let cands := ["/bin", joinPath sys.moduleDir "bin",
                        joinPath sys.homeDir ".local/bin"]
          match cands.find? (fun path => sys.fileExists (joinPath path "patchelf")) with
          | some path => Except.ok (joinPath path "patchelf")
          | none => Except.error (Err.fileNotFound "patchelf")
      Except.ok { arch := arch, imgPrefix := imgPrefix, tag := tag,
                  patchelf := patchelf, excluded := excluded, impl := impl,
                  library_path := paths, pythonPrefix := pythonPrefix,
                  version := version }
  | _ => Except.error Err.notImplemented

/-! ## Dependency resolution (`extract.py` lines 218-248)

The `dependencies` dict of `Extractor.ldd` is modelled as an association
list in insertion order (Python dicts preserve insertion order).  Alongside
the closure we also record the sequence of names passed to
`locate_library`, in call order, so that claims about "how often a library
is looked up" are observable. -/

/-- The accumulating `dependencies` dict: name to resolved path, in
insertion order. -/
abbrev Closure := List (String × String)

/-- Keys of a closure, in insertion order. -/
def keys (c : Closure) : List String :=
  c.map Prod.fst

/-- `Extractor.locate_library` (`extract.py` lines 240-248): first directory
of `library_path` containing `name` wins; `none` is `FileNotFoundError`. -/
def locate_library (E : Extractor) (sys : Sys) (name : String) : Option String :=
  match E.library_path.find? (fun dirname => sys.fileExists (joinPath dirname name)) with
  | some dirname => some (joinPath dirname name)
  | none => none

/-- The body of the `for match in matches` loop of `recurse`
(`extract.py` lines 230-234), with the recursive call abstracted as
`recur`.  A name already present in the dict, or excluded, is skipped;
otherwise it is located, inserted, and recursed into. -/
def lddMs (E : Extractor) (sys : Sys)
    (recur : String → Closure → List String → Except Err (Closure × List String)) :
    List String → Closure → List String → Except Err (Closure × List String)
  | [], deps, log => Except.ok (deps, log)
  | m :: rest, deps, log =>
    if m ∈ keys deps ∨ m ∈ E.excluded then
      lddMs E sys recur rest deps log
    else
      match locate_library E sys m with
      | none => Except.error (Err.fileNotFound m)
      | some path =>
        match recur path (deps ++ [(m, path)]) (log ++ [m]) with
        | Except.error e => Except.error e
        | Except.ok dg => lddMs E sys recur rest dg.1 dg.2

/-- `recurse` of `Extractor.ldd` (`extract.py` lines 224-234): read the
target's `(NEEDED)` entries and process them.  `fuel` bounds the recursion
depth of the embedding; the Python original recurses unboundedly. -/
def lddRec (E : Extractor) (sys : Sys) :
    Nat → String → Closure → List String → Except Err (Closure × List String)
  | 0, _, _, _ => Except.error Err.fuelOut
  | fuel + 1, target, deps, log => lddMs E sys (lddRec E sys fuel) (sys.needed target) deps log

/-- `Extractor.ldd` (`extract.py` lines 218-237): the closure starts empty
on every call. -/
def ldd (E : Extractor) (sys : Sys) (fuel : Nat) (target : String) :
    Except Err (Closure × List String) :=
  lddRec E sys fuel target [] []

/-- One key/value insertion of Python `dict.update`: an existing key keeps
its position and gets the new value; a new key is appended. -/
def dictInsert (c : Closure) (k v : String) : Closure :=
  if k ∈ keys c then c.map (fun kv => if kv.1 = k then (k, v) else kv)
  else c ++ [(k, v)]

/-- Python `dict.update`: fold the right dict into the left one. -/
def dictUpdate (a b : Closure) : Closure :=
  b.foldl (fun acc kv => dictInsert acc kv.1 kv.2) a

/-- The `for module in ...: l = self.ldd(module); libs.update(l)` loop of
`Extractor.extract` (`extract.py` lines 185-188), with the locate-call
logs of the successive `ldd` calls concatenated. -/
def extractLibsGo (E : Extractor) (sys : Sys) (fuel : Nat) :
    List String → Closure → List String → Except Err (Closure × List String)
  | [], libs, lg => Except.ok (libs, lg)
  | moduleFile :: rest, libs, lg =>
    match ldd E sys fuel moduleFile with
    | Except.error e => Except.error e
    | Except.ok lg2 => extractLibsGo E sys fuel rest (dictUpdate libs lg2.1) (lg ++ lg2.2)

/-- The dependency-mapping step of one extraction (`extract.py` lines
183-188): one `ldd` call for the interpreter runtime, then one per compiled
extension module, unioned with `dict.update`. -/
def extractLibs (E : Extractor) (sys : Sys) (fuel : Nat) (runtime : String)
    (modules : List String) : Except Err (Closure × List String) :=
  match ldd E sys fuel runtime with
  | Except.error e => Except.error e
  | Except.ok lg => extractLibsGo E sys fuel modules lg.1 lg.2

/-- Transitive non-excluded dependency of `root` in the image: a name
declared `NEEDED` by `root` itself, or declared by the resolved file of an
already-reachable dependency, never passing through an excluded name. -/
inductive DepReach (E : Extractor) (sys : Sys) (root : String) : String → Prop
  | base (m : String) : m ∈ sys.needed root → m ∉ E.excluded → DepReach E sys root m
  | step (n path m : String) : DepReach E sys root n →
      locate_library E sys n = some path → m ∈ sys.needed path →
      m ∉ E.excluded → DepReach E sys root m

/-! ## The relocation patcher (`extract.py` lines 251-258)

`patchelf --print-rpath` and `patchelf --set-rpath` operate on per-file
state: `rpaths` is the stored rpath of each file (what `--print-rpath`
writes to stdout, up to a trailing newline), and `patched` records every
performed `--set-rpath` invocation. -/

structure World where
  rpaths : String → String
  patched : List (String × String)

/-- `Extractor.set_rpath` (`extract.py` lines 251-258): query the current
rpath (`stdout.decode().strip()`), patch only when it differs. -/
def set_rpath (w : World) (target rpath : String) : World :=
  if trimS (w.rpaths target) = rpath then w
  else
    { rpaths := fun p => if p = target then rpath else w.rpaths p,
      patched := w.patched ++ [(target, rpath)] }

/-! ## The extraction pipeline (`extract.py` lines 149-215)

Side effects are recorded as a trace of operations in program order. -/

/-- Filesystem and patching operations performed by `Extractor.extract`. -/
inductive Op
  | mkdir (path : String)
  | copyFile (src dst : String)
  | unlink (path : String)
  | symlink (target linkName : String)
  | copyTree (src dst : String)
  | chmod (path : String) (mode : Nat)
  | ensureRpath (target rpath : String)
deriving DecidableEq

/-- The per-dependency body of the `for (name, src) in libs.items()` loop
(`extract.py` lines 192-203): copy, make owner-writable when needed, and
request the `$ORIGIN` search directive.  `shutil.copy` copies the
permission bits, so the mode the code reads back from the destination is
the mode of the source file. -/
def libOps (sys : Sys) (libdir name src : String) : List Op :=
  let dst := joinPath libdir name
  let mode := sys.mode src
  [Op.copyFile src dst] ++
  (if mode &&& 128 = 0 then [Op.chmod dst (mode ||| 128)] else []) ++
  [Op.ensureRpath dst "$ORIGIN"]

/-- `Extractor.extract` (`extract.py` lines 149-215), as the trace of
operations of a successful run (an error aborts the call and surfaces to
the caller). -/
def extract (E : Extractor) (sys : Sys) (fuel : Nat) (destination : String) :
    Except Err (List Op) :=
  let python := "python" ++ E.version.short
  let runtime := "bin/" ++ python
  let packages := "lib/" ++ python
  match sys.glob (joinPath E.pythonPrefix "include/*") with
  | [] => Except.error Err.notImplemented
  | inc :: _ =>
    let includeDir := "include/" ++ pathName inc
    let shortMaj := "bin/python" ++ toString E.version.major
    let cloneOps : List Op :=
      [Op.mkdir (joinPath destination "bin"),
       Op.copyFile (joinPath E.pythonPrefix runtime) (joinPath destination runtime),
       Op.unlink (joinPath destination shortMaj),
       Op.symlink python (joinPath destination shortMaj),
       Op.unlink (joinPath destination "bin/python"),
       Op.symlink ("python" ++ toString E.version.major) (joinPath destination "bin/python"),
       Op.copyTree (joinPath E.pythonPrefix packages) (joinPath destination packages),
       Op.copyTree (joinPath E.pythonPrefix includeDir) (joinPath destination includeDir)]
    let modulesSrc := sys.glob (joinPath (joinPath E.pythonPrefix (packages ++ "/lib-dynload")) "*.so")
    match extractLibs E sys fuel (joinPath E.pythonPrefix ("bin/" ++ python)) modulesSrc with
    | Except.error e => Except.error e
    | Except.ok libsLog =>
      let libdir := joinPath destination "lib"
      let depOps := libsLog.1.foldr (fun kv acc => libOps sys libdir kv.1 kv.2 ++ acc) []
      let modulesDst := sys.glob (joinPath (joinPath destination (packages ++ "/lib-dynload")) "*.so")
      let moduleOps := modulesDst.map (fun moduleFile =>
        Op.ensureRpath moduleFile ("$ORIGIN/" ++ sys.relpath libdir (parentDir moduleFile)))
      let rtDst := joinPath destination runtime
      let rtOp := Op.ensureRpath rtDst ("$ORIGIN/" ++ sys.relpath libdir (parentDir rtDst))
      Except.ok (cloneOps ++ depOps ++ moduleOps ++ [rtOp])

/-- `main` of `extractor_cli.py` (lines 9-31): refuse an existing
destination before constructing the `Extractor` and extracting. -/
def cliMain (arch : Arch) (imgPrefix tag destination : String) (sys : Sys)
    (fuel : Nat) : Except Err (List Op) :=
  if sys.fileExists destination then Except.error Err.fileExists
  else
    match postInit arch imgPrefix tag none none sys with
    | Except.error e => Except.error e
    | Except.ok E => extract E sys fuel destination

/-! ## Invariants of the dependency walk -/

/-- Basic invariant of one successful resolver step: the closure only
grows (with the locate log mirroring the inserted keys), key uniqueness is
preserved, and every entry comes from a `locate_library` call on a
non-excluded name. -/
def StepInv (E : Extractor) (sys : Sys) (deps : Closure) (log : List String)
    (d : Closure) (g : List String) : Prop :=
  (∃ ext, d = deps ++ ext ∧ g = log ++ keys ext) ∧
  ((keys deps).Nodup → (keys d).Nodup) ∧
  (∀ n p, (n, p) ∈ d → (n, p) ∈ deps ∨
    (n ∉ E.excluded ∧ locate_library E sys n = some p))

/-- The invariant holds of every successful call of `recur`. -/
def RecInv (E : Extractor) (sys : Sys)
    (recur : String → Closure → List String → Except Err (Closure × List String)) : Prop :=
  ∀ t deps log d g, recur t deps log = Except.ok (d, g) → StepInv E sys deps log d g

/-- Closedness of a successful resolver step: every processed name, and
every needed name of every newly inserted entry, ends up excluded or a key
of the final closure. -/
def RecClosed (E : Extractor) (sys : Sys)
    (recur : String → Closure → List String → Except Err (Closure × List String)) : Prop :=
  ∀ t deps log d g, recur t deps log = Except.ok (d, g) →
    (∀ m ∈ sys.needed t, m ∈ E.excluded ∨ m ∈ keys d) ∧
    (∀ n p, (n, p) ∈ d → (n, p) ∈ deps ∨
      ∀ m ∈ sys.needed p, m ∈ E.excluded ∨ m ∈ keys d)

/-! ## Termination of the dependency walk

The Python `recurse` terminates because every recursive call follows the
insertion of a key that was not yet in the dict.  Over a finite universe
`U` of library names (every name any file ever declares `NEEDED`), a
recursion budget of `U.length + 1` can therefore never run out. -/

/-- Number of names of `U` that are not yet keys of the closure. -/
def remaining (U : List String) (deps : Closure) : Nat :=
  (U.filter (fun u => decide (u ∉ keys deps))).length

/-! ## Derived observation helpers and concrete fixtures -/

/-- Final permission mode of `path` after a trace of operations, starting
from the mode the file had right after being copied. -/
def modeAfter (ops : List Op) (path : String) (m0 : Nat) : Nat :=
  ops.foldl
    (fun acc op =>
      match op with
      | Op.chmod p m => if p = path then m else acc
      | _ => acc) m0

/-- `s` is the canonical decimal numeral of the integer Python parses it
to (no sign prefix `+`, no leading zeros, no surrounding whitespace). -/
def canonNumeral (s : String) : Bool :=
  match pyInt? s with
  | some k => s == toString k
  | none => false

/-- `s` is a canonical numeral, or not an integer numeral at all (an
opaque label): exactly the strings the patch component stores losslessly. -/
def canonOrLabel (s : String) : Bool :=
  match pyInt? s with
  | some k => s == toString k
  | none => true

/-- Fixture: image whose interpreter symlink points at the installation
root `/opt/_internal/cpython-3.11.4`, as real manylinux images do. -/
def sysW1 : Sys :=
  { needed := fun _ => []
    fileExists := fun p => p == "/usr/bin/patchelf"
    mode := fun _ => 420
    readlink := fun p =>
      if p == "/img/opt/python/cp311-cp311" then some "/opt/_internal/cpython-3.11.4"
      else none
    glob := fun _ => []
    fileLines := fun _ => some ["# comment", "libc.so.6", ""]
    relpath := fun _ _ => ".."
    moduleDir := "/mod"
    homeDir := "/home/u" }

/-- Fixture: the link target of the specification scenario, with the extra
trailing `/bin` component. -/
def sysW1bad : Sys :=
  { sysW1 with
    readlink := fun p =>
      if p == "/img/opt/python/cp311-cp311" then some "/opt/_internal/cpython-3.11.4/bin"
      else none }

/-- Fixture extractor with a nonempty exclusion list. -/
def EW : Extractor :=
  { arch := Arch.X86_64, imgPrefix := "/img", tag := "cp311-cp311",
    patchelf := "/bin/patchelf", excluded := ["libfoo.so"],
    impl := PythonImpl.CPYTHON,
    library_path := ["/img/lib64", "/img/usr/local/lib"],
    pythonPrefix := "/img/opt/_internal/cpython-3.11.4",
    version := { major := 3, minor := 11, patch := Sum.inl 4 } }

/-- Fixture extractor with an empty exclusion list. -/
def EW0 : Extractor :=
  { EW with excluded := [] }

/-- Fixture: dependency graph with a cycle (`libA` needs `libB`, `libB`
needs `libA`). -/
def sysW4 : Sys :=
  { sysW1 with
    needed := fun p =>
      if p == "/img/bin/app" then ["libA.so"]
      else if p == "/img/lib64/libA.so" then ["libB.so"]
      else if p == "/img/lib64/libB.so" then ["libA.so"]
      else []
    fileExists := fun p => p == "/img/lib64/libA.so" || p == "/img/lib64/libB.so" }

/-- Fixture: two entry points that both need `libA.so`. -/
def sysW3 : Sys :=
  { sysW1 with
    needed := fun p =>
      if p == "/img/bin/app" then ["libA.so"]
      else if p == "/img/mod.so" then ["libA.so"]
      else []
    fileExists := fun p => p == "/img/lib64/libA.so" }

/-- Fixture: `libbar.so` is needed and drags in a `NEEDED` entry
`libfoo.so` that exists in the architecture lib directory but is on the
exclusion list. -/
def sysW5 : Sys :=
  { sysW1 with
    needed := fun p =>
      if p == "/img/bin/app" then ["libbar.so", "libfoo.so"]
      else if p == "/img/lib64/libbar.so" then ["libfoo.so"]
      else []
    fileExists := fun p => p == "/img/lib64/libbar.so" || p == "/img/lib64/libfoo.so" }

/-- Fixture: a `NEEDED` entry containing a path separator. -/
def sysW10 : Sys :=
  { sysW1 with
    needed := fun p => if p == "/img/bin/app" then ["sub/lib.so"] else []
    fileExists := fun p => p == "/img/lib64/sub/lib.so" }

/-- Fixture: full image for a whole `extract` run: include directory,
dynamic modules, and one shared-library dependency chain. -/
def sysW6 : Sys :=
  { sysW1 with
    needed := fun p =>
      if p == "/img/opt/_internal/cpython-3.11.4/bin/python3.11" then ["libA.so"]
      else if p == "/img/lib64/libA.so" then ["libB.so", "libfoo.so"]
      else if p == "/img/lib64/libB.so" then ["libA.so"]
      else []
    fileExists := fun p =>
      p == "/img/lib64/libA.so" || p == "/img/lib64/libB.so" || p == "/img/lib64/libfoo.so"
    mode := fun p => if p == "/img/lib64/libA.so" then 292 else 420
    glob := fun p =>
      if p == "/img/opt/_internal/cpython-3.11.4/include/*" then
        ["/img/opt/_internal/cpython-3.11.4/include/python3.11"]
      else if p == "/img/opt/_internal/cpython-3.11.4/lib/python3.11/lib-dynload/*.so" then
        ["/img/opt/_internal/cpython-3.11.4/lib/python3.11/lib-dynload/math.so"]
      else if p == "/out/lib/python3.11/lib-dynload/*.so" then
        ["/out/lib/python3.11/lib-dynload/math.so"]
      else []
    relpath := fun _ _ => "../.." }

/-- Fixture world for the relocation patcher. -/
def worldW : World :=
  { rpaths := fun _ => "/usr/lib", patched := [] }

/-! ## Basic lemmas about closures -/

theorem keys_append (a b : Closure) : keys (a ++ b) = keys a ++ keys b := by
  simp [keys]

theorem mem_keys_iff (n : String) (c : Closure) :
    n ∈ keys c ↔ ∃ p, (n, p) ∈ c := by
  constructor
  · intro h
    obtain ⟨⟨k, v⟩, hm, he⟩ := List.mem_map.mp h
    simp only at he
    subst he
    exact ⟨v, hm⟩
  · rintro ⟨p, hp⟩
    exact List.mem_map.mpr ⟨(n, p), hp, rfl⟩

theorem lddMs_inv (E : Extractor) (sys : Sys)
    (recur : String → Closure → List String → Except Err (Closure × List String))
    (hrec : RecInv E sys recur) :
    ∀ ms deps log d g, lddMs E sys recur ms deps log = Except.ok (d, g) →
      StepInv E sys deps log d g := by
  intro ms
  induction ms with
  | nil =>
    intro deps log d g h
    simp only [lddMs] at h
    obtain ⟨h1, h2⟩ : deps = d ∧ log = g := by
      cases h; exact ⟨rfl, rfl⟩
    subst h1; subst h2
    refine ⟨⟨[], by simp [keys]⟩, fun h => h, fun n p hp => Or.inl hp⟩
  | cons m rest ih =>
    intro deps log d g h
    simp only [lddMs] at h
    split at h
    · -- skip: already a key, or excluded
      exact ih deps log d g h
    · rename_i hskip
      cases hloc : locate_library E sys m with
      | none =>
        simp only [hloc] at h
        exact Except.noConfusion h
      | some path =>
        simp only [hloc] at h
        cases hrc : recur path (deps ++ [(m, path)]) (log ++ [m]) with
        | error e =>
          simp only [hrc] at h
          exact Except.noConfusion h
        | ok dg =>
          simp only [hrc] at h
          obtain ⟨⟨ext1, hd1, hg1⟩, hn1, hv1⟩ := hrec _ _ _ _ _ hrc
          obtain ⟨⟨ext2, hd2, hg2⟩, hn2, hv2⟩ := ih _ _ _ _ h
          have hmk : m ∉ keys deps ∧ m ∉ E.excluded := by
            push_neg at hskip; exact hskip
          refine ⟨⟨(m, path) :: ext1 ++ ext2, ?_, ?_⟩, ?_, ?_⟩
          · rw [hd2, hd1]; simp
          · rw [hg2, hg1]; simp [keys]
          · intro hnd
            apply hn2
            apply hn1
            rw [keys_append]
            refine List.Nodup.append hnd (by simp [keys]) ?_
            intro a ha hb
            simp only [keys, List.map_cons, List.map_nil, List.mem_singleton] at hb
            subst hb
            exact hmk.1 ha
          · intro n p hp
            rcases hv2 n p hp with hin | hnew
            · rcases hv1 n p hin with hin2 | hnew1
              · rcases List.mem_append.mp hin2 with hdeps | hsingle
                · exact Or.inl hdeps
                · have hnm : n = m ∧ p = path := by simpa using hsingle
                  exact Or.inr ⟨hnm.1 ▸ hmk.2, by rw [hnm.1, hnm.2]; exact hloc⟩
              · exact Or.inr hnew1
            · exact Or.inr hnew

theorem lddRec_inv (E : Extractor) (sys : Sys) :
    ∀ fuel, RecInv E sys (lddRec E sys fuel) := by
  intro fuel
  induction fuel with
  | zero => intro t deps log d g h; cases h
  | succ f ih =>
    intro t deps log d g h
    exact lddMs_inv E sys _ ih _ _ _ _ _ h

theorem lddMs_closed (E : Extractor) (sys : Sys)
    (recur : String → Closure → List String → Except Err (Closure × List String))
    (hrec : RecInv E sys recur) (hrecC : RecClosed E sys recur) :
    ∀ ms deps log d g, lddMs E sys recur ms deps log = Except.ok (d, g) →
      (∀ m ∈ ms, m ∈ E.excluded ∨ m ∈ keys d) ∧
      (∀ n p, (n, p) ∈ d → (n, p) ∈ deps ∨
        ∀ m ∈ sys.needed p, m ∈ E.excluded ∨ m ∈ keys d) := by
  intro ms
  induction ms with
  | nil =>
    intro deps log d g h
    simp only [lddMs] at h
    obtain ⟨h1, h2⟩ : deps = d ∧ log = g := by cases h; exact ⟨rfl, rfl⟩
    subst h1; subst h2
    exact ⟨by simp, fun n p hp => Or.inl hp⟩
  | cons m rest ih =>
    intro deps log d g h
    simp only [lddMs] at h
    split at h
    · rename_i hsk
      obtain ⟨ih1, ih2⟩ := ih deps log d g h
      obtain ⟨⟨ext, hd, hg⟩, _, _⟩ := lddMs_inv E sys recur hrec rest deps log d g h
      have hsub : ∀ a, a ∈ keys deps → a ∈ keys d := by
        intro a ha
        rw [hd, keys_append]
        exact List.mem_append_left _ ha
      refine ⟨?_, ih2⟩
      intro m2 hm2
      rcases List.mem_cons.mp hm2 with he | hr
      · subst he
        rcases hsk with hk | hx
        · exact Or.inr (hsub _ hk)
        · exact Or.inl hx
      · exact ih1 m2 hr
    · rename_i hskip
      cases hloc : locate_library E sys m with
      | none =>
        simp only [hloc] at h
        exact Except.noConfusion h
      | some path =>
        simp only [hloc] at h
        cases hrc : recur path (deps ++ [(m, path)]) (log ++ [m]) with
        | error e =>
          simp only [hrc] at h
          exact Except.noConfusion h
        | ok dg =>
          simp only [hrc] at h
          obtain ⟨hc1, hc2⟩ := hrecC _ _ _ _ _ hrc
          obtain ⟨ih1, ih2⟩ := ih _ _ _ _ h
          obtain ⟨⟨ext2, hd2, hg2⟩, _, _⟩ := lddMs_inv E sys recur hrec rest dg.1 dg.2 d g h
          obtain ⟨⟨ext1, hd1, hg1⟩, _, _⟩ := hrec _ _ _ _ _ hrc
          have hsub : ∀ a, a ∈ keys dg.1 → a ∈ keys d := by
            intro a ha
            rw [hd2, keys_append]
            exact List.mem_append_left _ ha
          have hmkeys : m ∈ keys d := by
            apply hsub
            rw [hd1, keys_append, keys_append]
            exact List.mem_append_left _ (List.mem_append_right _ (by simp [keys]))
          refine ⟨?_, ?_⟩
          · intro m2 hm2
            rcases List.mem_cons.mp hm2 with he | hr
            · subst he
              exact Or.inr hmkeys
            · exact ih1 m2 hr
          · intro n p hp
            rcases ih2 n p hp with hin | hcl
            · -- entry already in dg.1
              rcases hc2 n p hin with hin2 | hcl1
              · rcases List.mem_append.mp hin2 with hdeps | hsingle
                · exact Or.inl hdeps
                · have hnm : n = m ∧ p = path := by simpa using hsingle
                  refine Or.inr ?_
                  intro m2 hm2
                  rcases hc1 m2 (by rw [← hnm.2]; exact hm2) with hx | hk
                  · exact Or.inl hx
                  · exact Or.inr (hsub _ hk)
              · refine Or.inr ?_
                intro m2 hm2
                rcases hcl1 m2 hm2 with hx | hk
                · exact Or.inl hx
                · exact Or.inr (hsub _ hk)
            · exact Or.inr hcl

theorem lddRec_closed (E : Extractor) (sys : Sys) :
    ∀ fuel, RecClosed E sys (lddRec E sys fuel) := by
  intro fuel
  induction fuel with
  | zero => intro t deps log d g h; exact Except.noConfusion h
  | succ f ih =>
    intro t deps log d g h
    exact lddMs_closed E sys _ (lddRec_inv E sys f) ih _ _ _ _ _ h

theorem filter_length_mono {α : Type} (p q : α → Bool) :
    ∀ l : List α, (∀ a ∈ l, q a = true → p a = true) →
      (l.filter q).length ≤ (l.filter p).length := by
  intro l
  induction l with
  | nil => simp
  | cons a l ih =>
    intro h
    have hrest := ih (fun b hb hqb => h b (List.mem_cons_of_mem a hb) hqb)
    by_cases hq : q a = true
    · rw [List.filter_cons_of_pos hq, List.filter_cons_of_pos (h a (List.mem_cons_self a l) hq)]
      simpa using hrest
    · rw [List.filter_cons_of_neg (by simpa using hq)]
      by_cases hp : p a = true
      · rw [List.filter_cons_of_pos hp]
        exact Nat.le_succ_of_le hrest
      · rw [List.filter_cons_of_neg (by simpa using hp)]
        exact hrest

theorem remaining_mono (U : List String) (deps d : Closure)
    (hsub : ∀ a, a ∈ keys deps → a ∈ keys d) :
    remaining U d ≤ remaining U deps := by
  apply filter_length_mono
  intro a _ hq
  simp only [decide_eq_true_eq] at hq ⊢
  intro hmem
  exact hq (hsub a hmem)

theorem mem_keys_insert (u m p : String) (deps : Closure) :
    u ∈ keys (deps ++ [(m, p)]) ↔ u ∈ keys deps ∨ u = m := by
  rw [keys_append]
  simp [keys]

theorem remaining_insert (U : List String) (deps : Closure) (m p : String)
    (hNd : U.Nodup) (hmU : m ∈ U) (hmk : m ∉ keys deps) :
    remaining U (deps ++ [(m, p)]) + 1 = remaining U deps := by
  induction U with
  | nil => cases hmU
  | cons a U ih =>
    rw [List.nodup_cons] at hNd
    unfold remaining
    rcases List.mem_cons.mp hmU with rfl | hmem
    · rw [List.filter_cons_of_neg (by simp [mem_keys_insert]),
          List.filter_cons_of_pos (by simpa using hmk)]
      have hcong : U.filter (fun u => decide (u ∉ keys (deps ++ [(m, p)]))) =
          U.filter (fun u => decide (u ∉ keys deps)) := by
        apply List.filter_congr
        intro u hu
        rw [decide_eq_decide]
        have hne : u ≠ m := fun hc => hNd.1 (hc ▸ hu)
        rw [mem_keys_insert]
        simp [hne]
      rw [hcong]
      simp
    · have hcons : ∀ l2 : List String, (decide (a ∉ l2) = true ∧
          ((a :: U).filter (fun u => decide (u ∉ l2))).length =
            (U.filter (fun u => decide (u ∉ l2))).length + 1) ∨
          (decide (a ∉ l2) = false ∧
          ((a :: U).filter (fun u => decide (u ∉ l2))).length =
            (U.filter (fun u => decide (u ∉ l2))).length) := by
        intro l2
        by_cases hc : a ∈ l2
        · exact Or.inr ⟨by simpa using hc, by rw [List.filter_cons_of_neg (by simpa using hc)]⟩
        · exact Or.inl ⟨by simpa using hc, by rw [List.filter_cons_of_pos (by simpa using hc)]; simp⟩
      have hker : decide (a ∉ keys (deps ++ [(m, p)])) = decide (a ∉ keys deps) := by
        rw [decide_eq_decide, mem_keys_insert]
        have hne : a ≠ m := fun hc => hNd.1 (hc ▸ hmem)
        simp [hne]
      have hrec := ih hNd.2 hmem
      unfold remaining at hrec
      rcases hcons (keys (deps ++ [(m, p)])) with ⟨hc1, hc2⟩ | ⟨hc1, hc2⟩ <;>
        rcases hcons (keys deps) with ⟨hd1, hd2⟩ | ⟨hd1, hd2⟩ <;>
          rw [hker] at hc1 <;> rw [hc2, hd2] <;> first
          | omega
          | (rw [hd1] at hc1; exact Bool.noConfusion hc1)

theorem lddMs_nofuel (E : Extractor) (sys : Sys) (U : List String)
    (hNd : U.Nodup) (f : Nat)
    (hf : ∀ t deps log, remaining U deps + 1 ≤ f →
      lddRec E sys f t deps log ≠ Except.error Err.fuelOut) :
    ∀ ms deps log, (∀ m ∈ ms, m ∈ U) → remaining U deps + 1 ≤ f + 1 →
      lddMs E sys (lddRec E sys f) ms deps log ≠ Except.error Err.fuelOut := by
  intro ms
  induction ms with
  | nil =>
    intro deps log _ _
    simp [lddMs]
  | cons m rest ih =>
    intro deps log hms hrem
    simp only [lddMs]
    split
    · exact ih deps log (fun a ha => hms a (List.mem_cons_of_mem m ha)) hrem
    · rename_i hskip
      have hmk : m ∉ keys deps ∧ m ∉ E.excluded := by push_neg at hskip; exact hskip
      cases hloc : locate_library E sys m with
      | none =>
        simp only [hloc]
        intro hcon
        rw [Except.error.injEq] at hcon
        exact Err.noConfusion hcon
      | some path =>
        simp only [hloc]
        have hins := remaining_insert U deps m path hNd (hms m (List.mem_cons_self m rest)) hmk.1
        have hb1 : remaining U (deps ++ [(m, path)]) + 1 ≤ f := by omega
        cases hrc : lddRec E sys f path (deps ++ [(m, path)]) (log ++ [m]) with
        | error e =>
          simp only [hrc]
          intro hcon
          rw [Except.error.injEq] at hcon
          subst hcon
          exact hf _ _ _ hb1 hrc
        | ok dg =>
          simp only [hrc]
          obtain ⟨⟨ext1, hd1, hg1⟩, _, _⟩ := lddRec_inv E sys f _ _ _ _ _ hrc
          have hsub : ∀ a, a ∈ keys (deps ++ [(m, path)]) → a ∈ keys dg.1 := by
            intro a ha
            rw [hd1, keys_append]
            exact List.mem_append_left _ ha
          have hb2 : remaining U dg.1 + 1 ≤ f + 1 := by
            have := remaining_mono U (deps ++ [(m, path)]) dg.1 hsub
            omega
          exact ih dg.1 dg.2 (fun a ha => hms a (List.mem_cons_of_mem m ha)) hb2

theorem lddRec_nofuel (E : Extractor) (sys : Sys) (U : List String)
    (hU : ∀ p m, m ∈ sys.needed p → m ∈ U) (hNd : U.Nodup) :
    ∀ fuel t deps log, remaining U deps + 1 ≤ fuel →
      lddRec E sys fuel t deps log ≠ Except.error Err.fuelOut := by
  intro fuel
  induction fuel with
  | zero => intro t deps log h; omega
  | succ f ih =>
    intro t deps log h
    simp only [lddRec]
    exact lddMs_nofuel E sys U hNd f ih (sys.needed t) deps log
      (fun m hm => hU t m hm) h

theorem remaining_nil (U : List String) : remaining U [] = U.length := by
  simp [remaining, keys]

/-- With a budget of at least `U.length + 1` for a finite name universe
`U`, `ldd` never exhausts its recursion budget: its outcome is that of the
Python original. -/
theorem ldd_terminates (E : Extractor) (sys : Sys) (U : List String)
    (hU : ∀ p m, m ∈ sys.needed p → m ∈ U) (hNd : U.Nodup)
    (fuel : Nat) (hfuel : U.length + 1 ≤ fuel) (target : String) :
    ldd E sys fuel target ≠ Except.error Err.fuelOut := by
  unfold ldd
  apply lddRec_nofuel E sys U hU hNd
  rw [remaining_nil]
  exact hfuel

/-! ## Facts about `dict.update` -/

theorem keys_map_replace (c : Closure) (k v : String) :
    keys (c.map (fun kv => if kv.1 = k then (k, v) else kv)) = keys c := by
  unfold keys
  rw [List.map_map]
  apply List.map_congr_left
  intro kv _
  by_cases hc : kv.1 = k
  · simp [hc]
  · simp [hc]

theorem keys_dictInsert (c : Closure) (k v k2 : String) :
    k2 ∈ keys (dictInsert c k v) ↔ k2 ∈ keys c ∨ k2 = k := by
  unfold dictInsert
  split
  · rename_i hin
    rw [keys_map_replace]
    constructor
    · exact Or.inl
    · rintro (h | rfl)
      · exact h
      · exact hin
  · rename_i hout
    rw [keys_append]
    simp [keys]

theorem nodup_keys_dictInsert (c : Closure) (k v : String)
    (h : (keys c).Nodup) : (keys (dictInsert c k v)).Nodup := by
  unfold dictInsert
  split
  · rename_i hin
    rw [keys_map_replace]
    exact h
  · rename_i hout
    rw [keys_append]
    refine List.Nodup.append h (by simp [keys]) ?_
    intro a ha hb
    simp only [keys, List.map_cons, List.map_nil, List.mem_singleton] at hb
    subst hb
    exact hout ha

theorem keys_dictUpdate (b : Closure) :
    ∀ (a : Closure) (k : String),
      k ∈ keys (dictUpdate a b) ↔ k ∈ keys a ∨ k ∈ keys b := by
  induction b with
  | nil => intro a k; simp [dictUpdate, keys]
  | cons kv b ih =>
    intro a k
    have hstep : dictUpdate a (kv :: b) = dictUpdate (dictInsert a kv.1 kv.2) b := by
      simp [dictUpdate]
    rw [hstep, ih, keys_dictInsert]
    constructor
    · rintro ((h | h) | h)
      · exact Or.inl h
      · exact Or.inr (by simp [keys, h])
      · exact Or.inr (by simp [keys]; right; exact (mem_keys_iff _ _).mp h |>.imp (fun p hp => hp))
    · rintro (h | h)
      · exact Or.inl (Or.inl h)
      · rcases List.mem_cons.mp ((by simpa [keys] using h : k ∈ kv.1 :: keys b)) with he | hr
        · exact Or.inl (Or.inr he)
        · exact Or.inr hr

theorem nodup_keys_dictUpdate (b : Closure) :
    ∀ a : Closure, (keys a).Nodup → (keys (dictUpdate a b)).Nodup := by
  induction b with
  | nil => intro a h; simpa [dictUpdate] using h
  | cons kv b ih =>
    intro a h
    have hstep : dictUpdate a (kv :: b) = dictUpdate (dictInsert a kv.1 kv.2) b := by
      simp [dictUpdate]
    rw [hstep]
    exact ih _ (nodup_keys_dictInsert a kv.1 kv.2 h)

/-! ## Top-level facts about `ldd` -/

theorem ldd_ok_inv (E : Extractor) (sys : Sys) (fuel : Nat) (t : String)
    (c : Closure) (g : List String) (h : ldd E sys fuel t = Except.ok (c, g)) :
    (keys c).Nodup ∧ g = keys c ∧
      (∀ n p, (n, p) ∈ c → n ∉ E.excluded ∧ locate_library E sys n = some p) := by
  obtain ⟨⟨ext, hd, hg⟩, hn, hv⟩ := lddRec_inv E sys fuel _ _ _ _ _ h
  simp only [List.nil_append] at hd hg
  subst hd
  refine ⟨hn (by simp [keys]), hg, ?_⟩
  intro n p hp
  rcases hv n p hp with hfalse | hok
  · cases hfalse
  · exact hok

theorem ldd_ok_closed (E : Extractor) (sys : Sys) (fuel : Nat) (t : String)
    (c : Closure) (g : List String) (h : ldd E sys fuel t = Except.ok (c, g)) :
    (∀ m ∈ sys.needed t, m ∈ E.excluded ∨ m ∈ keys c) ∧
    (∀ n p, (n, p) ∈ c → ∀ m ∈ sys.needed p, m ∈ E.excluded ∨ m ∈ keys c) := by
  obtain ⟨hc1, hc2⟩ := lddRec_closed E sys fuel _ _ _ _ _ h
  refine ⟨hc1, ?_⟩
  intro n p hp m hm
  rcases hc2 n p hp with hfalse | hcl
  · cases hfalse
  · exact hcl m hm

/-- Completeness of one `ldd` call: every transitive non-excluded
dependency of the target ends up a key of the returned closure. -/
theorem ldd_complete (E : Extractor) (sys : Sys) (fuel : Nat) (t : String)
    (c : Closure) (g : List String) (h : ldd E sys fuel t = Except.ok (c, g)) :
    ∀ m, DepReach E sys t m → m ∈ keys c := by
  intro m hreach
  induction hreach with
  | base m2 hm2 hnx =>
    rcases (ldd_ok_closed E sys fuel t c g h).1 m2 hm2 with hx | hk
    · exact absurd hx hnx
    · exact hk
  | step n path m2 _ hloc hm2 hnx ihn =>
    obtain ⟨p2, hp2⟩ := (mem_keys_iff _ _).mp ihn
    have hloc2 := ((ldd_ok_inv E sys fuel t c g h).2.2 n p2 hp2).2
    have hpe : p2 = path := by
      rw [hloc] at hloc2
      exact (Option.some.injEq .. ▸ hloc2.symm)
    subst hpe
    rcases (ldd_ok_closed E sys fuel t c g h).2 n p2 hp2 m2 hm2 with hx | hk
    · exact absurd hx hnx
    · exact hk

/-- No excluded name is ever a key of an `ldd` closure. -/
theorem ldd_excluded (E : Extractor) (sys : Sys) (fuel : Nat) (t : String)
    (c : Closure) (g : List String) (h : ldd E sys fuel t = Except.ok (c, g)) :
    ∀ m ∈ E.excluded, m ∉ keys c := by
  intro m hx hk
  obtain ⟨p, hp⟩ := (mem_keys_iff _ _).mp hk
  exact ((ldd_ok_inv E sys fuel t c g h).2.2 m p hp).1 hx

/-! ## Facts about the per-extraction union of closures -/

theorem extractLibsGo_inv (E : Extractor) (sys : Sys) (fuel : Nat) :
    ∀ (mods : List String) (libs : Closure) (lg : List String) (c : Closure)
      (g : List String),
      extractLibsGo E sys fuel mods libs lg = Except.ok (c, g) →
      ((keys libs).Nodup → (keys c).Nodup) ∧
      (∀ k ∈ keys libs, k ∈ keys c) ∧
      (∀ mod ∈ mods, ∃ cm gm, ldd E sys fuel mod = Except.ok (cm, gm) ∧
        ∀ k ∈ keys cm, k ∈ keys c) ∧
      (∀ k ∈ keys c, k ∈ keys libs ∨ ∃ mod ∈ mods, ∃ cm gm,
        ldd E sys fuel mod = Except.ok (cm, gm) ∧ k ∈ keys cm) := by
  intro mods
  induction mods with
  | nil =>
    intro libs lg c g h
    simp only [extractLibsGo] at h
    obtain ⟨h1, _⟩ : libs = c ∧ lg = g := by cases h; exact ⟨rfl, rfl⟩
    subst h1
    exact ⟨fun hh => hh, fun k hk => hk, by simp, fun k hk => Or.inl hk⟩
  | cons mod rest ih =>
    intro libs lg c g h
    simp only [extractLibsGo] at h
    cases hld : ldd E sys fuel mod with
    | error e =>
      simp only [hld] at h
      exact Except.noConfusion h
    | ok lgm =>
      simp only [hld] at h
      obtain ⟨ihn, ihup, ihmods, ihback⟩ := ih _ _ _ _ h
      refine ⟨?_, ?_, ?_, ?_⟩
      · intro hnd
        exact ihn (nodup_keys_dictUpdate lgm.1 libs hnd)
      · intro k hk
        exact ihup k ((keys_dictUpdate lgm.1 libs k).mpr (Or.inl hk))
      · intro mod2 hmod2
        rcases List.mem_cons.mp hmod2 with he | hr
        · subst he
          refine ⟨lgm.1, lgm.2, hld, ?_⟩
          intro k hk
          exact ihup k ((keys_dictUpdate lgm.1 libs k).mpr (Or.inr hk))
        · obtain ⟨cm, gm, hcm, hsub⟩ := ihmods mod2 hr
          exact ⟨cm, gm, hcm, hsub⟩
      · intro k hk
        rcases ihback k hk with hup | ⟨mod2, hmod2, cm, gm, hcm, hkcm⟩
        · rcases (keys_dictUpdate lgm.1 libs k).mp hup with hl | hm
          · exact Or.inl hl
          · exact Or.inr ⟨mod, List.mem_cons_self mod rest, lgm.1, lgm.2, hld, hm⟩
        · exact Or.inr ⟨mod2, List.mem_cons_of_mem mod hmod2, cm, gm, hcm, hkcm⟩

/-! ## Claim theorems -/

/-- Claim C1, counterexample: for the image tree whose interpreter link is
`opt/python/cp311-cp311 -> /opt/_internal/cpython-3.11.4/bin` (the link
target of the claim, with its trailing `bin` component), constructing the
Extractor does not succeed: the implementation/version parse of the link
name `bin` raises `ValueError`, so no descriptor is derived at all. -/
theorem claim1_cex :
    postInit Arch.X86_64 "/img" "cp311-cp311" none (some "/usr/bin/patchelf") sysW1bad =
      Except.error Err.valueError := by
  rfl

/-- Claim C1, amended: for an interpreter link
`opt/python/cp311-cp311 -> /opt/_internal/cpython-3.11.4` (the install
prefix itself, as in real manylinux images), constructing the Extractor
succeeds and yields implementation CPython, version (3, 11, 4), and
install prefix `/opt/_internal/cpython-3.11.4` joined under the image
root. -/
theorem claim1_amended :
    (postInit Arch.X86_64 "/img" "cp311-cp311" none (some "/usr/bin/patchelf") sysW1).map
      (fun E => (E.impl, E.version, E.pythonPrefix)) =
    Except.ok (PythonImpl.CPYTHON,
      ({ major := 3, minor := 11, patch := Sum.inl 4 } : PythonVersion),
      "/img/opt/_internal/cpython-3.11.4") := by
  rfl

/-- Claim C2: when the destination path already exists, the command-line
entry point fails with `FileExistsError` before the Extractor is even
constructed, so no operation (in particular no copy of the interpreter
executable into `destination/bin`) is performed on the destination. -/
theorem claim2_thm (arch : Arch) (imgPrefix tag destination : String) (sys : Sys)
    (fuel : Nat) (h : sys.fileExists destination = true) :
    cliMain arch imgPrefix tag destination sys fuel = Except.error Err.fileExists ∧
    ∀ tr, cliMain arch imgPrefix tag destination sys fuel ≠ Except.ok tr := by
  have hmain : cliMain arch imgPrefix tag destination sys fuel = Except.error Err.fileExists := by
    unfold cliMain
    rw [if_pos h]
  exact ⟨hmain, fun tr hcon => Except.noConfusion (hmain ▸ hcon)⟩

theorem claim2_witness :
    cliMain Arch.X86_64 "/img" "cp311-cp311" "/img/lib64/libbar.so" sysW5 3 =
      Except.error Err.fileExists ∧
    ∀ tr, cliMain Arch.X86_64 "/img" "cp311-cp311" "/img/lib64/libbar.so" sysW5 3 ≠
      Except.ok tr :=
  claim2_thm Arch.X86_64 "/img" "cp311-cp311" "/img/lib64/libbar.so" sysW5 3 (by rfl)

/-- Claim C7: the relocation patcher first queries the binary's current
search directive and performs no patch when it already equals the request;
hence a second invocation with the same (whitespace-clean) directive on an
already-patched binary performs zero additional patch invocations. -/
theorem claim7_thm (w : World) (t r : String) :
    (trimS (w.rpaths t) = r → set_rpath w t r = w) ∧
    (trimS r = r →
      (set_rpath (set_rpath w t r) t r).patched = (set_rpath w t r).patched) := by
  have hfix : ∀ w2 : World, trimS (w2.rpaths t) = r → set_rpath w2 t r = w2 := by
    intro w2 h2
    unfold set_rpath
    rw [if_pos h2]
  refine ⟨hfix w, ?_⟩
  intro htr
  by_cases hcur : trimS (w.rpaths t) = r
  · rw [hfix w hcur, hfix w hcur]
  · have h1 : (set_rpath w t r).rpaths t = r := by
      unfold set_rpath
      rw [if_neg hcur]
      simp
    rw [hfix _ (by rw [h1, htr])]

theorem claim7_witness :
    (set_rpath (set_rpath worldW "/out/lib/libA.so" "$ORIGIN") "/out/lib/libA.so" "$ORIGIN").patched =
      (set_rpath worldW "/out/lib/libA.so" "$ORIGIN").patched :=
  (claim7_thm worldW "/out/lib/libA.so" "$ORIGIN").2 (by rfl)

/-! ## Permission handling (claim C8) -/

theorem and128_eq_zero_iff (m : Nat) : m &&& 128 = 0 ↔ m.testBit 7 = false := by
  have h128 : (128 : Nat) = 2 ^ 7 := by norm_num
  constructor
  · intro h
    have hbit := congrArg (fun x => Nat.testBit x 7) h
    simp only [Nat.testBit_and, Nat.zero_testBit] at hbit
    rw [h128, @Nat.testBit_two_pow_self 7] at hbit
    simpa using hbit
  · intro h
    apply Nat.eq_of_testBit_eq
    intro i
    rw [Nat.testBit_and, Nat.zero_testBit]
    by_cases hi : i = 7
    · subst hi
      rw [h]
      simp
    · have h0 : (128 : Nat).testBit i = false := by
        rw [h128]
        exact Nat.testBit_two_pow_of_ne (fun hc => hi hc.symm)
      rw [h0]
      simp

theorem modeAfter_libOps (sys : Sys) (libdir name src : String) :
    modeAfter (libOps sys libdir name src) (joinPath libdir name) (sys.mode src) =
      if sys.mode src &&& 128 = 0 then sys.mode src ||| 128 else sys.mode src := by
  unfold libOps modeAfter
  dsimp only
  by_cases hc : sys.mode src &&& 128 = 0
  · rw [if_pos hc, if_pos hc]
    simp
  · rw [if_neg hc, if_neg hc]
    simp

/-- Claim C8: for every dependency copied into the bundle's shared `lib/`
directory, the permission logic grants the owner-write bit when it is
missing, leaves the mode unchanged otherwise, and never modifies any
permission bit other than owner-write (bit 7, `S_IWUSR = 0o200`). -/
theorem claim8_thm (sys : Sys) (libdir name src : String) :
    (sys.mode src &&& 128 = 0 →
      modeAfter (libOps sys libdir name src) (joinPath libdir name) (sys.mode src) =
        sys.mode src ||| 128) ∧
    (sys.mode src &&& 128 ≠ 0 →
      modeAfter (libOps sys libdir name src) (joinPath libdir name) (sys.mode src) =
        sys.mode src) ∧
    (∀ i, i ≠ 7 →
      (modeAfter (libOps sys libdir name src) (joinPath libdir name) (sys.mode src)).testBit i =
        (sys.mode src).testBit i) ∧
    (modeAfter (libOps sys libdir name src) (joinPath libdir name) (sys.mode src)).testBit 7 =
      true := by
  have h128 : (128 : Nat) = 2 ^ 7 := by norm_num
  rw [modeAfter_libOps]
  by_cases hc : sys.mode src &&& 128 = 0
  · rw [if_pos hc]
    refine ⟨fun _ => rfl, fun hcon => absurd hc hcon, ?_, ?_⟩
    · intro i hi
      rw [Nat.testBit_or]
      have h0 : (128 : Nat).testBit i = false := by
        rw [h128]
        exact Nat.testBit_two_pow_of_ne (fun hc2 => hi hc2.symm)
      rw [h0]
      simp
    · rw [Nat.testBit_or, h128, @Nat.testBit_two_pow_self 7]
      simp
  · rw [if_neg hc]
    refine ⟨fun hcon => absurd hcon hc, fun _ => rfl, fun i _ => rfl, ?_⟩
    rcases hbit : (sys.mode src).testBit 7 with hfalse | htrue
    · exact absurd ((and128_eq_zero_iff (sys.mode src)).mpr hbit) hc
    · rfl

theorem claim8_witness :
    modeAfter (libOps sysW6 "/out/lib" "libA.so" "/img/lib64/libA.so")
        (joinPath "/out/lib" "libA.so") (sysW6.mode "/img/lib64/libA.so") =
      sysW6.mode "/img/lib64/libA.so" ||| 128 :=
  (claim8_thm sysW6 "/out/lib" "libA.so" "/img/lib64/libA.so").1 (by rfl)

/-! ## Version parsing and display (claim C9) -/

theorem strData_append (a b : String) : (a ++ b).data = a.data ++ b.data := by
  cases a
  cases b
  rfl

theorem strMk_data (s : String) : String.mk s.data = s := by
  cases s
  rfl

theorem splitFirstCh_append (sep : Char) (xs ys : List Char) (h : sep ∉ xs) :
    splitFirstCh sep (xs ++ sep :: ys) = some (xs, ys) := by
  induction xs with
  | nil => simp [splitFirstCh]
  | cons c xs ih =>
    have hc : ¬ c = sep := by
      intro hc2
      exact h (by rw [← hc2]; exact List.mem_cons_self c xs)
    rw [List.cons_append]
    rw [splitFirstCh, if_neg hc]
    rw [ih (fun hm => h (List.mem_cons_of_mem c hm))]

theorem splitMaxCh_step (sep : Char) (n : Nat) (xs ys : List Char) (h : sep ∉ xs) :
    splitMaxCh sep (n + 1) (xs ++ sep :: ys) = xs :: splitMaxCh sep n ys := by
  rw [splitMaxCh]
  rw [splitFirstCh_append sep xs ys h]

theorem version_split (a b c : String) (ha : '.' ∉ a.data) (hb : '.' ∉ b.data) :
    splitMaxCh '.' 2 (a ++ "." ++ b ++ "." ++ c).data = [a.data, b.data, c.data] := by
  have hdata : (a ++ "." ++ b ++ "." ++ c).data =
      a.data ++ '.' :: (b.data ++ '.' :: c.data) := by
    simp [strData_append]
  rw [hdata]
  rw [show (2 : Nat) = 1 + 1 from rfl]
  rw [splitMaxCh_step '.' 1 a.data _ ha]
  rw [splitMaxCh_step '.' 0 b.data _ hb]
  rfl

theorem canonNumeral_spec (s : String) (h : canonNumeral s = true) :
    ∃ k, pyInt? s = some k ∧ s = toString k := by
  unfold canonNumeral at h
  cases hp : pyInt? s with
  | none => rw [hp] at h; exact Bool.noConfusion h
  | some k =>
    rw [hp] at h
    exact ⟨k, rfl, by simpa using h⟩

/-- Claim C9, counterexample: `"3.11.04"` has the form
`<major>.<minor>.<rest>` with decimal-integer components (`pyInt?` parses
`"04"` to `4`), yet parsing and re-displaying yields `"3.11.4"`, not the
original string: the round trip is not lossless for non-canonical
numerals. -/
theorem claim9_cex :
    pyInt? "04" = some 4 ∧
    (PythonVersion.from_str "3.11.04").map PythonVersion.long = Except.ok "3.11.4" ∧
    "3.11.04" ≠ "3.11.4" := by
  refine ⟨by rfl, by rfl, by decide⟩

/-- Claim C9, amended: for version strings `<major>.<minor>.<rest>` whose
major and minor parts are canonical decimal numerals and whose rest part
is either a canonical decimal numeral or an opaque label (a string
`int()` rejects), parsing with `from_str` and displaying with `long`
returns the original string; and two parsed versions are equal exactly
when their components are equal. -/
theorem claim9_amended (a b c : String)
    (ha : canonNumeral a = true) (hb : canonNumeral b = true)
    (hc : canonOrLabel c = true)
    (hda : '.' ∉ a.data) (hdb : '.' ∉ b.data) :
    (∃ v, PythonVersion.from_str (a ++ "." ++ b ++ "." ++ c) = Except.ok v ∧
      v.long = a ++ "." ++ b ++ "." ++ c) ∧
    (∀ v w : PythonVersion,
      v = w ↔ v.major = w.major ∧ v.minor = w.minor ∧ v.patch = w.patch) := by
  obtain ⟨M, hMa, haM⟩ := canonNumeral_spec a ha
  obtain ⟨N, hNb, hbN⟩ := canonNumeral_spec b hb
  constructor
  · have hsplit := version_split a b c hda hdb
    cases hpc : pyInt? c with
    | some k =>
      have hck : c = toString k := by
        unfold canonOrLabel at hc
        rw [hpc] at hc
        simpa using hc
      refine ⟨⟨M, N, Sum.inl k⟩, ?_, ?_⟩
      · unfold PythonVersion.from_str
        rw [hsplit]
        dsimp only
        unfold pyInt? at hMa hNb hpc
        rw [hpc, hMa, hNb]
      · unfold PythonVersion.long PythonVersion.patchStr
        dsimp only
        rw [← haM, ← hbN, ← hck]
    | none =>
      refine ⟨⟨M, N, Sum.inr c⟩, ?_, ?_⟩
      · unfold PythonVersion.from_str
        rw [hsplit]
        dsimp only
        unfold pyInt? at hMa hNb hpc
        rw [hpc, hMa, hNb, strMk_data]
      · unfold PythonVersion.long PythonVersion.patchStr
        dsimp only
        rw [← haM, ← hbN]
  · intro v w
    constructor
    · intro h
      subst h
      exact ⟨rfl, rfl, rfl⟩
    · intro ⟨h1, h2, h3⟩
      cases v
      cases w
      simp only at h1 h2 h3
      rw [h1, h2, h3]

theorem claim9_witness :
    canonNumeral "3" = true ∧ canonNumeral "11" = true ∧ canonOrLabel "4" = true ∧
    (∃ v, PythonVersion.from_str ("3" ++ "." ++ "11" ++ "." ++ "4") = Except.ok v ∧
      v.long = "3" ++ "." ++ "11" ++ "." ++ "4") :=
  ⟨by rfl, by rfl, by rfl,
    (claim9_amended "3" "11" "4" (by rfl) (by rfl) (by rfl) (by decide) (by decide)).1⟩

/-! ## Claims about the dependency closure (C3, C4, C5, C10) -/

/-- Claim C3, counterexample: with two entry points that both need
`libA.so` (the interpreter and one extension module), the per-extraction
union of resolver calls looks `libA.so` up twice — each `ldd` call starts
from a fresh empty dict, so reachability from several entry points does
cause repeated Library-Locator lookups. -/
theorem claim3_cex :
    extractLibs EW0 sysW3 3 "/img/bin/app" ["/img/mod.so"] =
      Except.ok ([("libA.so", "/img/lib64/libA.so")], ["libA.so", "libA.so"]) ∧
    ¬ (["libA.so", "libA.so"] : List String).Nodup ∧
    (["libA.so", "libA.so"] : List String).count "libA.so" = 2 := by
  refine ⟨by rfl, by decide, by decide⟩

/-- Claim C3, amended: within a single resolver call each library name is
looked up through the Library Locator at most once (the locate-call log
has no duplicates — it equals the closure's key list), and the
accumulated per-extraction closure, the union of all per-entry-point
calls, has unique keys.  Across distinct entry-point calls of one
extraction, however, a name reachable from several entry points is looked
up once per call (see the counterexample). -/
theorem claim3_amended (E : Extractor) (sys : Sys) (fuel : Nat) :
    (∀ t c g, ldd E sys fuel t = Except.ok (c, g) → g = keys c ∧ g.Nodup) ∧
    (∀ rt mods c g, extractLibs E sys fuel rt mods = Except.ok (c, g) →
      (keys c).Nodup) := by
  constructor
  · intro t c g h
    obtain ⟨hnd, hg, _⟩ := ldd_ok_inv E sys fuel t c g h
    exact ⟨hg, hg ▸ hnd⟩
  · intro rt mods c g h
    unfold extractLibs at h
    cases hld : ldd E sys fuel rt with
    | error e =>
      simp only [hld] at h
      exact Except.noConfusion h
    | ok lg =>
      simp only [hld] at h
      obtain ⟨hnd0, _, _⟩ := ldd_ok_inv E sys fuel rt lg.1 lg.2 (by rw [hld])
      exact (extractLibsGo_inv E sys fuel mods lg.1 lg.2 c g h).1 hnd0

theorem claim3_witness :
    (["libA.so"] : List String) = keys [("libA.so", "/img/lib64/libA.so")] ∧
    (["libA.so"] : List String).Nodup :=
  (claim3_amended EW0 sysW3 3).1 "/img/bin/app"
    [("libA.so", "/img/lib64/libA.so")] ["libA.so"] (by rfl)

/-- Claim C4: over any finite dependency graph (all `NEEDED` names drawn
from a duplicate-free universe `U`), resolution with a recursion budget of
at least `U.length + 1` never exhausts the budget — it terminates exactly
as the Python original does, by inserting each name before recursing into
it — and every transitively reachable library, in particular each member
of a dependency cycle, appears exactly once as a key of the resulting
closure. -/
theorem claim4_thm (E : Extractor) (sys : Sys) (U : List String)
    (hU : ∀ p m, m ∈ sys.needed p → m ∈ U) (hNd : U.Nodup)
    (fuel : Nat) (hfuel : U.length + 1 ≤ fuel) (target : String) :
    ldd E sys fuel target ≠ Except.error Err.fuelOut ∧
    (∀ c g, ldd E sys fuel target = Except.ok (c, g) →
      ∀ m, DepReach E sys target m → (keys c).count m = 1) := by
  refine ⟨ldd_terminates E sys U hU hNd fuel hfuel target, ?_⟩
  intro c g h m hreach
  have hmem := ldd_complete E sys fuel target c g h m hreach
  have hnd := (ldd_ok_inv E sys fuel target c g h).1
  exact List.count_eq_one_of_mem hnd hmem

theorem claim4_witness :
    ldd EW0 sysW4 3 "/img/bin/app" ≠ Except.error Err.fuelOut ∧
    (keys [("libA.so", "/img/lib64/libA.so"), ("libB.so", "/img/lib64/libB.so")]).count
      "libA.so" = 1 ∧
    (keys [("libA.so", "/img/lib64/libA.so"), ("libB.so", "/img/lib64/libB.so")]).count
      "libB.so" = 1 := by
  have hU : ∀ p m, m ∈ sysW4.needed p → m ∈ ["libA.so", "libB.so"] := by
    intro p m h
    simp only [sysW4] at h
    split at h
    · simp_all
    · split at h
      · simp_all
      · split at h <;> simp_all
  have H := claim4_thm EW0 sysW4 ["libA.so", "libB.so"] hU (by decide) 3 (by decide)
    "/img/bin/app"
  have hreachA : DepReach EW0 sysW4 "/img/bin/app" "libA.so" :=
    DepReach.base "libA.so" (by decide) (by decide)
  have hreachB : DepReach EW0 sysW4 "/img/bin/app" "libB.so" :=
    DepReach.step "libA.so" "/img/lib64/libA.so" "libB.so" hreachA (by rfl)
      (by decide) (by decide)
  exact ⟨H.1, H.2 _ _ (by rfl) "libA.so" hreachA, H.2 _ _ (by rfl) "libB.so" hreachB⟩

/-- Claim C5: a successful per-extraction dependency resolution contains
no member of the exclusion set as a key — even when an excluded name is
declared `NEEDED` and a file of that name exists in a search directory —
and contains every transitive non-excluded dependency of the interpreter
runtime and of every compiled extension module entry point. -/
theorem claim5_thm (E : Extractor) (sys : Sys) (fuel : Nat) (rt : String)
    (mods : List String) (c : Closure) (g : List String)
    (hok : extractLibs E sys fuel rt mods = Except.ok (c, g)) :
    (∀ m ∈ E.excluded, m ∉ keys c) ∧
    (∀ m, DepReach E sys rt m → m ∈ keys c) ∧
    (∀ mod ∈ mods, ∀ m, DepReach E sys mod m → m ∈ keys c) := by
  unfold extractLibs at hok
  cases hld : ldd E sys fuel rt with
  | error e =>
    simp only [hld] at hok
    exact Except.noConfusion hok
  | ok lg =>
    simp only [hld] at hok
    obtain ⟨hgo1, hgo2, hgo3, hgo4⟩ := extractLibsGo_inv E sys fuel mods lg.1 lg.2 c g hok
    refine ⟨?_, ?_, ?_⟩
    · intro m hx hk
      rcases hgo4 m hk with hin | ⟨mod, hmod, cm, gm, hcm, hkcm⟩
      · exact ldd_excluded E sys fuel rt lg.1 lg.2 (by rw [hld]) m hx hin
      · exact ldd_excluded E sys fuel mod cm gm hcm m hx hkcm
    · intro m hreach
      exact hgo2 m (ldd_complete E sys fuel rt lg.1 lg.2 (by rw [hld]) m hreach)
    · intro mod hmod m hreach
      obtain ⟨cm, gm, hcm, hsub⟩ := hgo3 mod hmod
      exact hsub m (ldd_complete E sys fuel mod cm gm hcm m hreach)

theorem claim5_witness :
    "libfoo.so" ∉ keys [("libbar.so", "/img/lib64/libbar.so")] ∧
    "libbar.so" ∈ keys [("libbar.so", "/img/lib64/libbar.so")] := by
  have H := claim5_thm EW sysW5 3 "/img/bin/app" []
    [("libbar.so", "/img/lib64/libbar.so")] ["libbar.so"] (by rfl)
  exact ⟨H.1 "libfoo.so" (by decide),
    H.2.1 "libbar.so" (DepReach.base "libbar.so" (by decide) (by decide))⟩

/-! ## Resolved paths (claim C10) -/

theorem find?_split {α : Type} (q : α → Bool) :
    ∀ (l : List α) (d : α), l.find? q = some d →
      q d = true ∧ ∃ pre post, l = pre ++ d :: post ∧ ∀ x ∈ pre, q x = false := by
  intro l
  induction l with
  | nil => intro d h; exact Option.noConfusion h
  | cons a l ih =>
    intro d h
    by_cases hq : q a = true
    · rw [List.find?_cons_of_pos _ hq] at h
      have had : a = d := by simpa using h
      subst had
      exact ⟨hq, [], l, rfl, by simp⟩
    · rw [List.find?_cons_of_neg _ (by simpa using hq)] at h
      obtain ⟨hqd, pre, post, hsplit, hpre⟩ := ih d h
      refine ⟨hqd, a :: pre, post, by rw [hsplit, List.cons_append], ?_⟩
      intro x hx
      rcases List.mem_cons.mp hx with he | hr
      · subst he
        simpa using hq
      · exact hpre x hr

theorem splitAllCh_ne_nil (sep : Char) (cs : List Char) : splitAllCh sep cs ≠ [] := by
  cases cs with
  | nil => simp [splitAllCh]
  | cons c cs =>
    rw [splitAllCh]
    by_cases hc : c = sep
    · rw [if_pos hc]
      simp
    · rw [if_neg hc]
      cases splitAllCh sep cs <;> simp

theorem splitAllCh_append (sep : Char) (xs ys : List Char) :
    splitAllCh sep (xs ++ sep :: ys) = splitAllCh sep xs ++ splitAllCh sep ys := by
  induction xs with
  | nil => simp [splitAllCh]
  | cons c xs ih =>
    by_cases hc : c = sep
    · rw [List.cons_append, splitAllCh, if_pos hc, ih]
      rw [splitAllCh, if_pos hc]
      rfl
    · rw [List.cons_append, splitAllCh, if_neg hc, ih]
      rw [splitAllCh, if_neg hc]
      cases hsx : splitAllCh sep xs with
      | nil => exact absurd hsx (splitAllCh_ne_nil sep xs)
      | cons p ps => rfl

theorem splitAllCh_no_sep (sep : Char) (cs : List Char) (h : sep ∉ cs) :
    splitAllCh sep cs = [cs] := by
  induction cs with
  | nil => rfl
  | cons c cs ih =>
    have hc : ¬ c = sep := by
      intro hc2
      exact h (by rw [← hc2]; exact List.mem_cons_self c cs)
    rw [splitAllCh, if_neg hc, ih (fun hm => h (List.mem_cons_of_mem c hm))]

theorem pathName_join (d n : String) (hne : n ≠ "") (hnos : '/' ∉ n.data) :
    pathName (joinPath d n) = n := by
  have hne2 : n.data ≠ [] := by
    intro hcon
    apply hne
    cases n
    simp only at hcon
    rw [hcon]
  have hjoin : joinPath d n = d ++ "/" ++ n := by
    unfold joinPath
    split
    · rename_i heq
      exact absurd (heq ▸ List.mem_cons_self '/' _) (by rw [heq] at hnos ⊢; exact hnos)
    · rfl
  rw [hjoin]
  unfold pathName
  have hdata : (d ++ "/" ++ n).data = d.data ++ '/' :: n.data := by
    simp [strData_append]
  rw [hdata, splitAllCh_append, splitAllCh_no_sep '/' n.data hnos]
  rw [List.filter_append]
  have hnonempty : (!n.data.isEmpty) = true := by
    cases hd : n.data with
    | nil => exact absurd hd hne2
    | cons _ _ => rfl
  have h1 : List.filter (fun c => !c.isEmpty) [n.data] = [n.data] := by
    simp only [List.filter_cons, hnonempty, if_pos, List.filter_nil]
  rw [h1, List.getLastD_concat, strMk_data]

/-- Claim C10, counterexample: a `NEEDED` entry containing a path
separator (legal in ELF dynamic sections) is resolved by joining it to a
search directory, and the resolved path's basename is then `lib.so`, not
the closure key `sub/lib.so`: the basename clause of the claim does not
hold for every entry. -/
theorem claim10_cex :
    ldd EW0 sysW10 3 "/img/bin/app" =
      Except.ok ([("sub/lib.so", "/img/lib64/sub/lib.so")], ["sub/lib.so"]) ∧
    pathName "/img/lib64/sub/lib.so" ≠ "sub/lib.so" := by
  refine ⟨by rfl, by decide⟩

/-- Claim C10, amended: every entry `(name, path)` of a closure returned
by dependency resolution satisfies: `path` exists, `path` is `name`
joined (pathlib-style) onto the first search-path directory whose join
with `name` exists — no earlier directory matches — and, whenever `name`
is a bare file name (nonempty, without path separator, the normal case
for `NEEDED` entries), the basename of `path` equals `name`. -/
theorem claim10_amended (E : Extractor) (sys : Sys) (fuel : Nat) (t : String)
    (c : Closure) (g : List String) (hok : ldd E sys fuel t = Except.ok (c, g)) :
    ∀ n p, (n, p) ∈ c →
      sys.fileExists p = true ∧
      (∃ pre d2 post, E.library_path = pre ++ d2 :: post ∧ p = joinPath d2 n ∧
        ∀ d3 ∈ pre, sys.fileExists (joinPath d3 n) = false) ∧
      (n ≠ "" → '/' ∉ n.data → pathName p = n) := by
  intro n p hp
  have hloc := ((ldd_ok_inv E sys fuel t c g hok).2.2 n p hp).2
  unfold locate_library at hloc
  cases hfind : E.library_path.find? (fun dirname => sys.fileExists (joinPath dirname n)) with
  | none =>
    simp only [hfind] at hloc
    exact Option.noConfusion hloc
  | some d2 =>
    simp only [hfind] at hloc
    have hpd : p = joinPath d2 n := by
      have := Option.some.injEq (joinPath d2 n) p ▸ hloc
      exact this.symm
    obtain ⟨hq, pre, post, hsplit, hpre⟩ := find?_split _ E.library_path d2 hfind
    refine ⟨?_, ⟨pre, d2, post, hsplit, hpd, hpre⟩, ?_⟩
    · rw [hpd]
      exact hq
    · intro hne hnos
      rw [hpd]
      exact pathName_join d2 n hne hnos

theorem claim10_witness :
    sysW4.fileExists "/img/lib64/libA.so" = true ∧
    pathName "/img/lib64/libA.so" = "libA.so" := by
  have H := claim10_amended EW0 sysW4 3 "/img/bin/app"
    [("libA.so", "/img/lib64/libA.so"), ("libB.so", "/img/lib64/libB.so")]
    ["libA.so", "libB.so"] (by rfl) "libA.so" "/img/lib64/libA.so" (by decide)
  exact ⟨H.1, H.2.2 (by decide) (by decide)⟩

/-! ## Search directives written by the extraction (claim C6) -/

theorem origin_ne_slash (rest r2 : String) : "$ORIGIN" ++ rest ≠ "/" ++ r2 := by
  intro h
  have hd := congrArg String.data h
  rw [strData_append, strData_append] at hd
  have h1 : "$ORIGIN".data = '$' :: "ORIGIN".data := rfl
  have h2 : "/".data = '/' :: "".data := rfl
  rw [h1, h2] at hd
  rw [List.cons_append, List.cons_append] at hd
  injection hd with hc _
  exact absurd hc (by decide)

theorem origin_str_ne_slash (dd : String) (h : ∃ rest, dd = "$ORIGIN" ++ rest) :
    ∀ r2, dd ≠ "/" ++ r2 := by
  intro r2 hcon
  obtain ⟨rest, hr⟩ := h
  exact origin_ne_slash rest r2 (hr ▸ hcon)

theorem mem_foldr_libOps (sys : Sys) (libdir : String) (libs : Closure) (op : Op) :
    op ∈ libs.foldr (fun kv acc => libOps sys libdir kv.1 kv.2 ++ acc) [] →
    ∃ kv, kv ∈ libs ∧ op ∈ libOps sys libdir kv.1 kv.2 := by
  induction libs with
  | nil => intro h; simp at h
  | cons kv libs ih =>
    intro h
    rw [List.foldr_cons] at h
    rcases List.mem_append.mp h with h1 | h2
    · exact ⟨kv, List.mem_cons_self kv libs, h1⟩
    · obtain ⟨kv2, hkv2, hop⟩ := ih h2
      exact ⟨kv2, List.mem_cons_of_mem kv hkv2, hop⟩

theorem libOps_rpath (sys : Sys) (libdir name src t dd : String) :
    Op.ensureRpath t dd ∈ libOps sys libdir name src → dd = "$ORIGIN" := by
  unfold libOps
  intro h
  dsimp only at h
  rcases List.mem_append.mp h with h1 | h2
  · rcases List.mem_append.mp h1 with h3 | h4
    · simp at h3
    · split at h4
      · simp at h4
      · simp at h4
  · simp only [List.mem_singleton, Op.ensureRpath.injEq] at h2
    exact h2.2

/-- Claim C6: every search directive `extract` requests for a bundled
binary is self-relative: it is the `$ORIGIN` token, optionally followed by
a relative path toward the shared `lib/` directory, and it is never an
absolute path (so it cannot name the original image-tree location). -/
theorem claim6_thm (E : Extractor) (sys : Sys) (fuel : Nat) (destination : String)
    (tr : List Op) (hok : extract E sys fuel destination = Except.ok tr) :
    ∀ t dd, Op.ensureRpath t dd ∈ tr →
      (∃ rest, dd = "$ORIGIN" ++ rest) ∧ ∀ r2, dd ≠ "/" ++ r2 := by
  unfold extract at hok
  split at hok
  · exact Except.noConfusion hok
  · dsimp only at hok
    split at hok
    · exact Except.noConfusion hok
    · rename_i libsLog hlibs
      injection hok with htr
      subst htr
      intro t dd hmem
      have hgoal : ∃ rest, dd = "$ORIGIN" ++ rest := by
        rcases List.mem_append.mp hmem with h1 | h2
        · rcases List.mem_append.mp h1 with h3 | h4
          · rcases List.mem_append.mp h3 with h5 | h6
            · simp at h5
            · obtain ⟨kv, _, hop⟩ := mem_foldr_libOps _ _ _ _ h6
              refine ⟨"", ?_⟩
              rw [libOps_rpath _ _ kv.1 kv.2 t dd hop]
              rw [String.append_empty]
          · obtain ⟨moduleFile, _, hop⟩ := List.mem_map.mp h4
            simp only [Op.ensureRpath.injEq] at hop
            refine ⟨"/" ++ sys.relpath (joinPath destination "lib") (parentDir moduleFile), ?_⟩
            rw [← hop.2, ← String.append_assoc]
            rfl
        · simp only [List.mem_singleton, Op.ensureRpath.injEq] at h2
          refine ⟨"/" ++ sys.relpath (joinPath destination "lib")
            (parentDir (joinPath destination ("bin/" ++ ("python" ++ E.version.short)))), ?_⟩
          rw [h2.2, ← String.append_assoc]
          rfl
      exact ⟨hgoal, origin_str_ne_slash dd hgoal⟩

theorem claim6_witness :
    (∃ rest, "$ORIGIN" = "$ORIGIN" ++ rest) ∧ ∀ r2, "$ORIGIN" ≠ "/" ++ r2 :=
  claim6_thm EW sysW6 5 "/out"
    [Op.mkdir "/out/bin",
     Op.copyFile "/img/opt/_internal/cpython-3.11.4/bin/python3.11" "/out/bin/python3.11",
     Op.unlink "/out/bin/python3",
     Op.symlink "python3.11" "/out/bin/python3",
     Op.unlink "/out/bin/python",
     Op.symlink "python3" "/out/bin/python",
     Op.copyTree "/img/opt/_internal/cpython-3.11.4/lib/python3.11" "/out/lib/python3.11",
     Op.copyTree "/img/opt/_internal/cpython-3.11.4/include/python3.11"
       "/out/include/python3.11",
     Op.copyFile "/img/lib64/libA.so" "/out/lib/libA.so",
     Op.chmod "/out/lib/libA.so" 420,
     Op.ensureRpath "/out/lib/libA.so" "$ORIGIN",
     Op.copyFile "/img/lib64/libB.so" "/out/lib/libB.so",
     Op.ensureRpath "/out/lib/libB.so" "$ORIGIN",
     Op.ensureRpath "/out/lib/python3.11/lib-dynload/math.so" "$ORIGIN/../..",
     Op.ensureRpath "/out/bin/python3.11" "$ORIGIN/../.."]
    (by rfl) "/out/lib/libA.so" "$ORIGIN" (by decide)
